import Mathlib

/-!
Shallow embedding of the stopping-game Monte-Carlo program
(`stoppingGame.ts`): the threshold solver (`computeF`, `thresholds`),
the per-worker simulation loop (`simulate`), the main thread's work
split (`workerShares`) and message-driven aggregation (`onMessage`).
JavaScript numbers are modelled as exact rationals; the global
`Math.random()` stream is modelled as an explicit function `ℕ → ℚ`
of the draw index, multiplied by the prize ceiling as in the source.
-/

namespace StoppingGame

/-- The source constant `MAX_PRESSES = 10`. -/
def MAX_PRESSES : ℕ := 10

/-- The source constant `TOP_PRIZE = 100_000`. -/
def TOP_PRIZE : ℚ := 100000

/-- Source `computeF(maxPresses)`: starts from `[f(0), f(1)] = [0, 0.5]`
and, for `j = 2 .. maxPresses` in increasing order, pushes
`0.5 + 0.5 * f[j-1] ** 2` where `f[j-1]` is the last element so far.
The recursion on the loop bound reproduces the iteration exactly. -/
def computeF : ℕ → List ℚ
  | 0 => [0, 1/2]
  | 1 => [0, 1/2]
  | maxPresses + 2 =>
      let f := computeF (maxPresses + 1)
      f ++ [1/2 + 1/2 * (f.getD (maxPresses + 1) 0) ^ 2]

/-- Source `thresholds(maxPresses, prize)`: for `k = maxPresses` down to
`1`, push `f[k - 1] * prize`; entry `i` of the result therefore reads
index `maxPresses - 1 - i` of `computeF maxPresses`. -/
def thresholds (maxPresses : ℕ) (prize : ℚ) : List ℚ :=
  let f := computeF maxPresses
  (List.range maxPresses).map fun i => f.getD (maxPresses - 1 - i) 0 * prize

/-- The inner `for (press = 1; press <= maxPresses; press++)` loop of one
trial of `simulate`.  `pos` is the index of the next value of the random
stream; the loop body draws `const draw = rand pos * prize`, stops
(returning the accepted draw and the next stream position) when
`draw >= th[press - 1] || press === maxPresses`, and otherwise continues
with the next press.  If the loop is entered with `press > maxPresses`
(only possible when `maxPresses = 0`) it exits at once having accepted
nothing. -/
def pressLoop (th : List ℚ) (maxPresses : ℕ) (prize : ℚ) (rand : ℕ → ℚ)
    (pos press : ℕ) : ℚ × ℕ :=
  if maxPresses < press then (0, pos)
  else if th.getD (press - 1) 0 ≤ rand pos * prize ∨ press = maxPresses then
    (rand pos * prize, pos + 1)
  else pressLoop th maxPresses prize rand (pos + 1) (press + 1)
termination_by maxPresses + 1 - press
decreasing_by simp_wf; omega

/-- The outer `for (s = 0; s < sims; s++)` loop of `simulate`, threading
the random-stream position through the trials and summing the accepted
draws (`winnings += draw`). -/
def simulateAux (th : List ℚ) (maxPresses : ℕ) (prize : ℚ) (rand : ℕ → ℚ) :
    ℕ → ℕ → ℚ
  | 0, _ => 0
  | sims + 1, pos =>
      let r := pressLoop th maxPresses prize rand pos 1
      r.1 + simulateAux th maxPresses prize rand sims r.2

/-- Source `simulate(sims, th, maxPresses, prize)` with the random
stream made explicit, starting at stream position `0`. -/
def simulate (sims : ℕ) (th : List ℚ) (maxPresses : ℕ) (prize : ℚ)
    (rand : ℕ → ℚ) : ℚ :=
  simulateAux th maxPresses prize rand sims 0

/-- The main thread's work split:
`simsPerWorker = Math.floor(totalSims / numWorkers)`,
`extra = totalSims % numWorkers`, and worker `i` receives
`simsPerWorker + (i === 0 ? extra : 0)`. -/
def workerShares (totalSims numWorkers : ℕ) : List ℕ :=
  let simsPerWorker := totalSims / numWorkers
  let extra := totalSims % numWorkers
  (List.range numWorkers).map fun i => simsPerWorker + if i = 0 then extra else 0

/-- A JavaScript number that may be the result of division: a finite
value, `NaN` (from `0 / 0`), or a signed infinity (from `x / 0` with
`x ≠ 0`). -/
inductive JsNum where
  | num (q : ℚ)
  | nan
  | inf
  | negInf
deriving DecidableEq

/-- JavaScript division `a / b` on the modelled numbers. -/
def jsDiv (a b : ℚ) : JsNum :=
  if b = 0 then (if a = 0 then .nan else if 0 < a then .inf else .negInf)
  else .num (a / b)

/-- What the main thread prints when the last worker reports. -/
structure RunReport where
  grandTotal : ℚ
  totalSims : ℕ
  mean : JsNum
deriving DecidableEq

/-- The whole main-thread run: split `totalSims` over `numWorkers`
workers, let worker `i` run `simulate` with its own random stream
`rand i` against `thresholds(maxPresses, prize)`, sum the subtotals and
compute `mean = grandTotal / totalSims`.  No code path signals an
error: the report is produced unconditionally. -/
def mainRun (totalSims numWorkers : ℕ) (rand : ℕ → ℕ → ℚ) : RunReport :=
  let shares := workerShares totalSims numWorkers
  let subs := (List.range numWorkers).map fun i =>
    simulate (shares.getD i 0) (thresholds MAX_PRESSES TOP_PRIZE)
      MAX_PRESSES TOP_PRIZE (rand i)
  let grandTotal := subs.sum
  { grandTotal := grandTotal, totalSims := totalSims
    mean := jsDiv grandTotal (totalSims : ℚ) }

/-- State of the main thread's `"message"` handler: the `finished`
counter, the running `grandTotal`, and how many times the finalization
block (`++finished === numWorkers`) has executed. -/
structure AggState where
  finished : ℕ
  grandTotal : ℚ
  finalized : ℕ
deriving DecidableEq

/-- One `"message"` event: `grandTotal += sub`, and the finalization
block runs exactly when the incremented counter equals `numWorkers`. -/
def onMessage (numWorkers : ℕ) (st : AggState) (sub : ℚ) : AggState :=
  let finished := st.finished + 1
  { finished := finished
    grandTotal := st.grandTotal + sub
    finalized := st.finalized + if finished = numWorkers then 1 else 0 }

/-- Process a whole arrival order of worker subtotals from the initial
state (`finished = 0`, `grandTotal = 0`, nothing finalized). -/
def processAll (numWorkers : ℕ) (subs : List ℚ) : AggState :=
  subs.foldl (onMessage numWorkers) ⟨0, 0, 0⟩

/-- Modelled from the spec: the recurrence of §4.1,
`f(0) = 0`, `f(1) = 0.5`, `f(j) = 0.5·(1 + f(j-1)²)` for `j ≥ 2`. -/
def fspec : ℕ → ℚ
  | 0 => 0
  | 1 => 1/2
  | j + 2 => 1/2 * (1 + (fspec (j + 1)) ^ 2)

/-! ### Basic facts about the recurrence and the threshold table -/

lemma fspec_succ (j : ℕ) : fspec (j + 1) = 1/2 * (1 + (fspec j) ^ 2) := by
  cases j with
  | zero => norm_num [fspec]
  | succ k => rfl

lemma fspec_le_succ (j : ℕ) : fspec j ≤ fspec (j + 1) := by
  rw [fspec_succ]
  nlinarith [sq_nonneg (fspec j - 1)]

lemma fspec_mono : Monotone fspec := monotone_nat_of_le_succ fspec_le_succ

lemma computeF_length (m : ℕ) : (computeF m).length = max 2 (m + 1) := by
  induction m with
  | zero => rfl
  | succ n ih =>
    cases n with
    | zero => rfl
    | succ k =>
      show (computeF (k + 1) ++ [_]).length = _
      rw [List.length_append, ih]
      simp only [List.length_singleton]
      omega

/-- Entry `j` of the array built by `computeF` is `f(j)` of the spec's
recurrence, for every index the threshold loop can read. -/
lemma computeF_getD (m : ℕ) : ∀ j, j ≤ m → (computeF m).getD j 0 = fspec j := by
  induction m with
  | zero =>
    intro j hj
    interval_cases j
    rfl
  | succ n ih =>
    intro j hj
    cases n with
    | zero =>
      interval_cases j <;> rfl
    | succ k =>
      show ((computeF (k + 1)) ++ [_]).getD j 0 = fspec j
      rcases Nat.lt_or_ge j (k + 2) with h | h
      · rw [List.getD_append _ _ _ _ (by rw [computeF_length]; omega)]
        exact ih j (by omega)
      · have hj2 : j = k + 2 := by omega
        subst hj2
        rw [List.getD_append_right _ _ _ _ (by rw [computeF_length]; omega)]
        rw [computeF_length]
        have hz : k + 2 - max 2 (k + 1 + 1) = 0 := by omega
        rw [hz]
        show 1/2 + 1/2 * ((computeF (k + 1)).getD (k + 1) 0) ^ 2 = fspec (k + 2)
        rw [ih (k + 1) (by omega), fspec]
        ring

lemma thresholds_length (m : ℕ) (c : ℚ) : (thresholds m c).length = m := by
  simp [thresholds]

/-- Entry `i` of the threshold table is `f(maxPresses - 1 - i) * prize`. -/
lemma thresholds_getD (m : ℕ) (c : ℚ) (i : ℕ) (h : i < m) :
    (thresholds m c).getD i 0 = fspec (m - 1 - i) * c := by
  show ((List.range m).map _).getD i 0 = _
  rw [List.getD_eq_getElem _ _ (by simpa using h)]
  simp only [List.getElem_map, List.getElem_range]
  rw [computeF_getD m (m - 1 - i) (by omega)]

/-! ### Facts about the trial loop -/

/-- The trial loop, started at any `press` within range, stops at the
first qualifying press: there is a unique stopping press `p`, the loop
returns the draw made at `p` having consumed exactly the draws of
presses `press .. p`, the draw at `p` qualifies (or `p` is the forced
last press), and every earlier draw was below its threshold. -/
lemma pressLoop_run (th : List ℚ) (m : ℕ) (prize : ℚ) (rand : ℕ → ℚ) :
    ∀ fuel press pos, 1 ≤ press → press ≤ m → m - press ≤ fuel →
      ∃ p, press ≤ p ∧ p ≤ m ∧
        pressLoop th m prize rand pos press =
          (rand (pos + (p - press)) * prize, pos + (p - press) + 1) ∧
        (th.getD (p - 1) 0 ≤ rand (pos + (p - press)) * prize ∨ p = m) ∧
        ∀ q, press ≤ q → q < p →
          rand (pos + (q - press)) * prize < th.getD (q - 1) 0 := by
  intro fuel
  induction fuel with
  | zero =>
    intro press pos h1 h2 h3
    have hpm : press = m := by omega
    refine ⟨press, le_refl _, h2, ?_, Or.inr hpm, fun q hq1 hq2 => by omega⟩
    rw [pressLoop, if_neg (by omega), if_pos (Or.inr hpm)]
    simp
  | succ fuel ih =>
    intro press pos h1 h2 h3
    by_cases hpm : press = m
    · refine ⟨press, le_refl _, h2, ?_, Or.inr hpm, fun q hq1 hq2 => by omega⟩
      rw [pressLoop, if_neg (by omega), if_pos (Or.inr hpm)]
      simp
    · by_cases hacc : th.getD (press - 1) 0 ≤ rand pos * prize
      · refine ⟨press, le_refl _, h2, ?_, ?_, fun q hq1 hq2 => by omega⟩
        · rw [pressLoop, if_neg (by omega), if_pos (Or.inl hacc)]
          simp
        · left
          simpa using hacc
      · obtain ⟨p, hp1, hp2, hp3, hp4, hp5⟩ :=
          ih (press + 1) (pos + 1) (by omega) (by omega) (by omega)
        have hoff : pos + 1 + (p - (press + 1)) = pos + (p - press) := by omega
        rw [hoff] at hp3 hp4
        refine ⟨p, by omega, hp2, ?_, hp4, ?_⟩
        · rw [pressLoop, if_neg (by omega),
            if_neg (by push_neg; exact ⟨lt_of_not_le hacc, hpm⟩)]
          rw [hp3]
        · intro q hq1 hq2
          rcases Nat.eq_or_lt_of_le hq1 with hq | hq
          · have hqp : pos + (q - press) = pos := by omega
            rw [hqp, ← hq]
            exact lt_of_not_le hacc
          · have hqp : pos + (q - press) = pos + 1 + (q - (press + 1)) := by omega
            rw [hqp]
            exact hp5 q (by omega) hq2

/-- The accepted draw of one trial lies in `[0, prize]`, and so does the
degenerate `0` returned when `maxPresses = 0`. -/
lemma pressLoop_bounds (th : List ℚ) (m : ℕ) (prize : ℚ) (rand : ℕ → ℚ)
    (hp : 0 < prize) (hr : ∀ n, 0 ≤ rand n ∧ rand n < 1) :
    ∀ fuel press pos, m + 1 - press ≤ fuel →
      0 ≤ (pressLoop th m prize rand pos press).1 ∧
        (pressLoop th m prize rand pos press).1 ≤ prize := by
  intro fuel
  induction fuel with
  | zero =>
    intro press pos h
    rw [pressLoop, if_pos (by omega)]
    exact ⟨le_refl _, le_of_lt hp⟩
  | succ fuel ih =>
    intro press pos h
    rw [pressLoop]
    split_ifs with h1 h2
    · exact ⟨le_refl _, le_of_lt hp⟩
    · constructor
      · exact mul_nonneg (hr pos).1 (le_of_lt hp)
      · exact mul_le_of_le_one_left (le_of_lt hp) (le_of_lt (hr pos).2)
    · exact ih (press + 1) (pos + 1) (by omega)

lemma simulateAux_bounds (th : List ℚ) (m : ℕ) (prize : ℚ) (rand : ℕ → ℚ)
    (hp : 0 < prize) (hr : ∀ n, 0 ≤ rand n ∧ rand n < 1) :
    ∀ sims pos, 0 ≤ simulateAux th m prize rand sims pos ∧
      simulateAux th m prize rand sims pos ≤ (sims : ℚ) * prize := by
  intro sims
  induction sims with
  | zero =>
    intro pos
    simp [simulateAux]
  | succ s ih =>
    intro pos
    obtain ⟨h1, h2⟩ :=
      pressLoop_bounds th m prize rand hp hr (m + 1) 1 pos (by omega)
    obtain ⟨h3, h4⟩ := ih (pressLoop th m prize rand pos 1).2
    constructor
    · exact add_nonneg h1 h3
    · have hs : ((s : ℚ) + 1) * prize = prize + (s : ℚ) * prize := by ring
      push_cast
      rw [hs]
      exact add_le_add h2 h4

/-! ### Claims about the simulation loop -/

/-- C1: in every trial, exactly one draw is accepted: the trial stops at
the first press `p` (1-based, `1 ≤ p ≤ maxPresses`) whose draw meets or
exceeds the threshold at table index `p - 1`, or at `p = maxPresses` if
no earlier draw qualified (forced acceptance); the accepted draw is
added to the running subtotal, every earlier draw is discarded, and no
trial ends without accepting a value. -/
theorem simulate_accepts_one (th : List ℚ) (m : ℕ) (prize : ℚ)
    (rand : ℕ → ℚ) (pos : ℕ) (hm : 1 ≤ m) :
    ∃ p, 1 ≤ p ∧ p ≤ m ∧
      pressLoop th m prize rand pos 1 =
        (rand (pos + (p - 1)) * prize, pos + p) ∧
      (th.getD (p - 1) 0 ≤ rand (pos + (p - 1)) * prize ∨ p = m) ∧
      (∀ q, 1 ≤ q → q < p →
        rand (pos + (q - 1)) * prize < th.getD (q - 1) 0) ∧
      ∀ sims, simulateAux th m prize rand (sims + 1) pos =
        rand (pos + (p - 1)) * prize +
          simulateAux th m prize rand sims (pos + p) := by
  obtain ⟨p, hp1, hp2, hp3, hp4, hp5⟩ :=
    pressLoop_run th m prize rand (m - 1) 1 pos (le_refl _) hm (by omega)
  have hpp : pos + (p - 1) + 1 = pos + p := by omega
  rw [hpp] at hp3
  refine ⟨p, hp1, hp2, hp3, hp4, hp5, fun sims => ?_⟩
  show (pressLoop th m prize rand pos 1).1 +
      simulateAux th m prize rand sims (pressLoop th m prize rand pos 1).2 = _
  rw [hp3]

/-- Witness for C1: `maxPresses = 2`, threshold table `[1, 0]`,
`prize = 1`, random stream constantly `1/2`, stream position `0`. -/
theorem simulate_accepts_one_witness :
    1 ≤ 2 ∧ ∃ p, 1 ≤ p ∧ p ≤ 2 ∧
      pressLoop [1, 0] 2 1 (fun _ => 1/2) 0 1 =
        ((fun _ : ℕ => (1:ℚ)/2) (0 + (p - 1)) * 1, 0 + p) ∧
      (([1, (0:ℚ)]).getD (p - 1) 0 ≤ (fun _ : ℕ => (1:ℚ)/2) (0 + (p - 1)) * 1 ∨
        p = 2) ∧
      (∀ q, 1 ≤ q → q < p →
        (fun _ : ℕ => (1:ℚ)/2) (0 + (q - 1)) * 1 <
          ([1, (0:ℚ)]).getD (q - 1) 0) ∧
      ∀ sims, simulateAux [1, 0] 2 1 (fun _ => 1/2) (sims + 1) 0 =
        (fun _ : ℕ => (1:ℚ)/2) (0 + (p - 1)) * 1 +
          simulateAux [1, 0] 2 1 (fun _ => 1/2) sims (0 + p) :=
  ⟨by norm_num, simulate_accepts_one [1, 0] 2 1 (fun _ => 1/2) 0 (by norm_num)⟩

/-- C9: for every trial count, threshold table and random stream whose
draws lie in `[0, prizeCeiling)`, the subtotal `simulate` returns lies
between `0` and `sims * prizeCeiling`, and `simulate` with `sims = 0`
returns exactly `0`. -/
theorem simulate_bounded (sims : ℕ) (th : List ℚ) (m : ℕ) (prize : ℚ)
    (rand : ℕ → ℚ) (hp : 0 < prize) (hr : ∀ n, 0 ≤ rand n ∧ rand n < 1) :
    0 ≤ simulate sims th m prize rand ∧
      simulate sims th m prize rand ≤ (sims : ℚ) * prize ∧
      simulate 0 th m prize rand = 0 :=
  ⟨(simulateAux_bounds th m prize rand hp hr sims 0).1,
    (simulateAux_bounds th m prize rand hp hr sims 0).2, rfl⟩

/-- Witness for C9: two trials, table `[1, 0]`, `maxPresses = 2`,
`prize = 1`, random stream constantly `1/2`. -/
theorem simulate_bounded_witness :
    (0:ℚ) < 1 ∧ (∀ n : ℕ, 0 ≤ (fun _ : ℕ => (1:ℚ)/2) n ∧
        (fun _ : ℕ => (1:ℚ)/2) n < 1) ∧
      0 ≤ simulate 2 [1, 0] 2 1 (fun _ => 1/2) ∧
      simulate 2 [1, 0] 2 1 (fun _ => 1/2) ≤ ((2:ℕ) : ℚ) * 1 :=
  ⟨by norm_num, fun n => by norm_num,
    (simulate_bounded 2 [1, 0] 2 1 (fun _ => 1/2) (by norm_num)
      (fun n => by norm_num)).1,
    (simulate_bounded 2 [1, 0] 2 1 (fun _ => 1/2) (by norm_num)
      (fun n => by norm_num)).2.1⟩

/-! ### Claims about the work split -/

lemma sum_map_const_range (n q : ℕ) :
    ((List.range n).map fun _ => q).sum = n * q := by
  induction n with
  | zero => simp
  | succ k ih =>
    rw [List.sum_range_succ, ih]
    ring

/-- C3: the work split gives every one of the `workerCount` workers a
non-negative trial count and the counts sum to `totalTrials` exactly. -/
theorem workerShares_conserves (t w : ℕ) (hw : 1 ≤ w) :
    (workerShares t w).length = w ∧ (workerShares t w).sum = t ∧
      ∀ x ∈ workerShares t w, 0 ≤ x := by
  obtain ⟨n, rfl⟩ : ∃ n, w = n + 1 := ⟨w - 1, by omega⟩
  refine ⟨by simp [workerShares], ?_, fun x _ => Nat.zero_le x⟩
  show ((List.range (n + 1)).map fun i =>
    t / (n + 1) + if i = 0 then t % (n + 1) else 0).sum = t
  rw [List.sum_range_succ']
  simp only [Nat.succ_ne_zero, ite_false, ite_true, add_zero, if_pos rfl]
  rw [sum_map_const_range]
  have h2 : t / (n + 1) + t % (n + 1) + n * (t / (n + 1)) =
      (n + 1) * (t / (n + 1)) + t % (n + 1) := by ring
  rw [h2, Nat.div_add_mod]

/-- Witness for C3 at `totalTrials = 7`, `workerCount = 3`. -/
theorem workerShares_conserves_witness :
    1 ≤ 3 ∧ (workerShares 7 3).length = 3 ∧ (workerShares 7 3).sum = 7 :=
  ⟨by norm_num, (workerShares_conserves 7 3 (by norm_num)).1,
    (workerShares_conserves 7 3 (by norm_num)).2.1⟩

/-! ### Claims about the aggregator -/

/-- Folding `"message"` events: the `finished` counter counts the events
processed, and the finalization block has run exactly once iff the
counter passed through `numWorkers` during the fold. -/
lemma foldl_onMessage (n : ℕ) : ∀ (l : List ℚ) (st : AggState),
    (l.foldl (onMessage n) st).finished = st.finished + l.length ∧
    (l.foldl (onMessage n) st).finalized = st.finalized +
      (if st.finished < n ∧ n ≤ st.finished + l.length then 1 else 0) := by
  intro l
  induction l with
  | nil =>
    intro st
    simp only [List.foldl_nil, List.length_nil, Nat.add_zero]
    constructor
    · trivial
    · split_ifs with h
      · omega
      · rfl
  | cons a l ih =>
    intro st
    obtain ⟨ihf, ihz⟩ := ih (onMessage n st a)
    have e1 : (onMessage n st a).finished = st.finished + 1 := rfl
    have e2 : (onMessage n st a).finalized =
        st.finalized + if st.finished + 1 = n then 1 else 0 := rfl
    rw [e1] at ihf ihz
    rw [e2] at ihz
    constructor
    · show (l.foldl (onMessage n) (onMessage n st a)).finished = _
      rw [ihf]
      simp only [List.length_cons]
      omega
    · show (l.foldl (onMessage n) (onMessage n st a)).finalized = _
      rw [ihz]
      simp only [List.length_cons]
      split_ifs <;> omega

/-- C8: when the Aggregator receives exactly `workerCount` completion
signals (one per worker, in any arrival order), the finalization step
executes exactly once, namely at the moment the completion counter
first equals `workerCount`: after all signals it has run once, and
after any proper prefix of the signals it has not run at all. -/
theorem aggregator_finalizes_once (n : ℕ) (subs : List ℚ) (hn : 1 ≤ n)
    (hlen : subs.length = n) :
    (processAll n subs).finished = n ∧ (processAll n subs).finalized = 1 ∧
      ∀ k, k < n → (processAll n (subs.take k)).finalized = 0 := by
  obtain ⟨hf, hz⟩ := foldl_onMessage n subs ⟨0, 0, 0⟩
  refine ⟨?_, ?_, ?_⟩
  · rw [processAll, hf, hlen]
    show 0 + n = n
    omega
  · rw [processAll, hz, hlen]
    show 0 + (if 0 < n ∧ n ≤ 0 + n then 1 else 0) = 1
    rw [if_pos ⟨by omega, by omega⟩]
  · intro k hk
    obtain ⟨_, hz2⟩ := foldl_onMessage n (subs.take k) ⟨0, 0, 0⟩
    rw [processAll, hz2]
    show 0 + (if 0 < n ∧ n ≤ 0 + (subs.take k).length then 1 else 0) = 0
    rw [if_neg]
    rw [List.length_take, hlen]
    omega

/-- Witness for C8: two workers reporting subtotals `5` and `7`. -/
theorem aggregator_finalizes_once_witness :
    1 ≤ 2 ∧ ([(5:ℚ), 7]).length = 2 ∧
      (processAll 2 [(5:ℚ), 7]).finished = 2 ∧
      (processAll 2 [(5:ℚ), 7]).finalized = 1 ∧
      (processAll 2 (([(5:ℚ), 7]).take 1)).finalized = 0 :=
  ⟨by norm_num, by norm_num,
    (aggregator_finalizes_once 2 [(5:ℚ), 7] (by norm_num) (by norm_num)).1,
    (aggregator_finalizes_once 2 [(5:ℚ), 7] (by norm_num) (by norm_num)).2.1,
    (aggregator_finalizes_once 2 [(5:ℚ), 7] (by norm_num) (by norm_num)).2.2
      1 (by norm_num)⟩

/-! ### The missing error handling -/

lemma workerShares_zero_getD (w i : ℕ) : (workerShares 0 w).getD i 0 = 0 := by
  rcases Nat.lt_or_ge i w with h | h
  · show ((List.range w).map _).getD i 0 = 0
    rw [List.getD_eq_getElem _ _ (by simpa using h)]
    simp
  · refine List.getD_eq_default _ _ ?_
    show ((List.range w).map _).length ≤ i
    simpa using h

/-- C4 (code evaluation): with `totalTrials = 0` the main thread does
not signal any error: every worker receives `0` trials and returns
subtotal `0`, and the run unconditionally computes and reports
`mean = grandTotal / totalSims = 0 / 0`, which is `NaN`. -/
theorem zero_trials_mean_is_nan (w : ℕ) (rand : ℕ → ℕ → ℚ) :
    (mainRun 0 w rand).mean = JsNum.nan := by
  show jsDiv (((List.range w).map (fun i =>
    simulate ((workerShares 0 w).getD i 0) (thresholds MAX_PRESSES TOP_PRIZE)
      MAX_PRESSES TOP_PRIZE (rand i))).sum) ((0:ℕ) : ℚ) = JsNum.nan
  simp only [workerShares_zero_getD]
  have hs : ∀ i : ℕ, simulate 0 (thresholds MAX_PRESSES TOP_PRIZE)
      MAX_PRESSES TOP_PRIZE (rand i) = 0 := fun i => rfl
  simp only [hs]
  simp [jsDiv]

/-! ### Claims about the threshold solver -/

/-- C2: for every `maxPresses ≥ 1` and `prizeCeiling > 0`, `thresholds`
returns a table of length exactly `maxPresses` whose entry for `k`
presses remaining (stored at index `maxPresses - k`, i.e. emitted in
order from `k = maxPresses` down to `k = 1`) equals `f(k-1) * prize`,
where `f` is the spec's recurrence `fspec`. -/
theorem thresholds_match_recurrence (m : ℕ) (c : ℚ) (hm : 1 ≤ m) (hc : 0 < c) :
    (thresholds m c).length = m ∧
      ∀ k, 1 ≤ k → k ≤ m →
        (thresholds m c).getD (m - k) 0 = fspec (k - 1) * c := by
  refine ⟨thresholds_length m c, fun k hk1 hkm => ?_⟩
  rw [thresholds_getD m c (m - k) (by omega)]
  congr 2
  omega

/-- Witness for C2 at `maxPresses = 3`, `prizeCeiling = 7`, `k = 2`. -/
theorem thresholds_match_recurrence_witness :
    1 ≤ 3 ∧ (0:ℚ) < 7 ∧ (thresholds 3 7).getD (3 - 2) 0 = fspec (2 - 1) * 7 :=
  ⟨by norm_num, by norm_num,
    (thresholds_match_recurrence 3 7 (by norm_num) (by norm_num)).2 2
      (by norm_num) (by norm_num)⟩

/-- C5: for every `maxPresses ≥ 1` and `prizeCeiling > 0`, the threshold
table is monotonically non-increasing in index order and its last entry
(one press remaining) is exactly `0`. -/
theorem thresholds_antitone_and_last_zero (m : ℕ) (c : ℚ) (hm : 1 ≤ m)
    (hc : 0 < c) :
    (∀ i j, i ≤ j → j < m →
      (thresholds m c).getD j 0 ≤ (thresholds m c).getD i 0) ∧
    (thresholds m c).getD (m - 1) 0 = 0 := by
  constructor
  · intro i j hij hj
    rw [thresholds_getD m c i (by omega), thresholds_getD m c j hj]
    exact mul_le_mul_of_nonneg_right (fspec_mono (by omega)) (le_of_lt hc)
  · rw [thresholds_getD m c (m - 1) (by omega)]
    have h0 : m - 1 - (m - 1) = 0 := by omega
    rw [h0]
    norm_num [fspec]

/-- Witness for C5 at `maxPresses = 3`, `prizeCeiling = 5`, indices `0 ≤ 2`. -/
theorem thresholds_antitone_and_last_zero_witness :
    1 ≤ 3 ∧ (0:ℚ) < 5 ∧
      (thresholds 3 5).getD 2 0 ≤ (thresholds 3 5).getD 0 0 ∧
      (thresholds 3 5).getD (3 - 1) 0 = 0 := by
  refine ⟨by norm_num, by norm_num, ?_, ?_⟩
  · exact (thresholds_antitone_and_last_zero 3 5 (by norm_num) (by norm_num)).1
      0 2 (by norm_num) (by norm_num)
  · exact (thresholds_antitone_and_last_zero 3 5 (by norm_num) (by norm_num)).2

/-- C7: `thresholds 10 100000` matches the published values of the
spec within absolute tolerance `0.5`. -/
theorem thresholds_default_values :
    |(thresholds 10 100000).getD 0 0 - 8498214/100| ≤ 1/2 ∧
    |(thresholds 10 100000).getD 1 0 - 8364465/100| ≤ 1/2 ∧
    |(thresholds 10 100000).getD 2 0 - 8203006/100| ≤ 1/2 ∧
    |(thresholds 10 100000).getD 3 0 - 8003757/100| ≤ 1/2 ∧
    |(thresholds 10 100000).getD 4 0 - 7750815/100| ≤ 1/2 ∧
    |(thresholds 10 100000).getD 5 0 - 7417297/100| ≤ 1/2 ∧
    |(thresholds 10 100000).getD 6 0 - 6953125/100| ≤ 1/2 ∧
    |(thresholds 10 100000).getD 7 0 - 62500| ≤ 1/2 ∧
    |(thresholds 10 100000).getD 8 0 - 50000| ≤ 1/2 ∧
    |(thresholds 10 100000).getD 9 0 - 0| ≤ 1/2 := by
  rw [thresholds_getD 10 100000 0 (by norm_num),
    thresholds_getD 10 100000 1 (by norm_num),
    thresholds_getD 10 100000 2 (by norm_num),
    thresholds_getD 10 100000 3 (by norm_num),
    thresholds_getD 10 100000 4 (by norm_num),
    thresholds_getD 10 100000 5 (by norm_num),
    thresholds_getD 10 100000 6 (by norm_num),
    thresholds_getD 10 100000 7 (by norm_num),
    thresholds_getD 10 100000 8 (by norm_num),
    thresholds_getD 10 100000 9 (by norm_num)]
  norm_num [abs_le, fspec]

/-- C10: the threshold table is homogeneous in the prize ceiling: the
table for `(maxPresses, c)` is the table for `(maxPresses, 1)` with
every entry multiplied by `c`. -/
theorem thresholds_homogeneous (m : ℕ) (c : ℚ) (hm : 1 ≤ m) :
    thresholds m c = (thresholds m 1).map (fun t => t * c) := by
  show (List.range m).map _ = ((List.range m).map _).map _
  rw [List.map_map]
  exact List.map_congr_left fun i _ => by
    show _ * c = (_ * 1) * c
    rw [mul_one]

/-- Witness for C10 at `maxPresses = 2`, `prizeCeiling = 3`. -/
theorem thresholds_homogeneous_witness :
    1 ≤ 2 ∧ thresholds 2 3 = (thresholds 2 1).map (fun t => t * 3) :=
  ⟨by norm_num, thresholds_homogeneous 2 3 (by norm_num)⟩

/-- C6 (code evaluation): for `maxPresses = 0` (the only natural number
below 1), `thresholds` neither rejects the input nor clamps it: the
`for (k = maxPresses; k >= 1; k--)` loop body never runs and the
function returns the empty table. -/
theorem thresholds_zero_presses_empty :
    thresholds 0 100000 = [] ∧ (thresholds 0 100000).length = 0 := by
  constructor <;> rfl

end StoppingGame
